import Mathlib

/-!
Verification development for the lambda-calculus interpreter core
(parser, unparser, macro preprocessor, one-step beta reduction with
capture-avoiding substitution, and alpha-equivalence).

The JavaScript source mutates the expression tree in place; here every
mutating function is embedded as a pure function returning the
transformed tree, and the mutable `parentVars` / `substitutions`
objects (whose entries are saved and restored around each recursive
call) are threaded as immutable lists.  Renderer-only bookkeeping
(`uid`, `replacedUid`, `color` fields) carries no calculus semantics
and is omitted from the AST.  Unbounded `while` loops of the source
(fresh-name search, the character-consuming parser and the macro
scanner) are embedded with an explicit fuel argument; call sites pass
a fuel that the source's own termination argument shows is never
exhausted.
-/

/-- The AST: the three node variants of the source (`VARIABLE`, `LAMBDA`,
`APPLICATION` in common.js). -/
inductive Expr : Type where
  | var (id : String)
  | lam (id : String) (expression : Expr)
  | app (left : Expr) (right : Expr)
deriving DecidableEq, Repr

/-- Number of nodes of an expression (used as fuel for `betaReduce`,
whose source recursion first renames a lambda body in place and then
recurses into it). -/
def Expr.size : Expr → Nat
  | .var _ => 1
  | .lam _ e => e.size + 1
  | .app l r => l.size + r.size + 1

/-- Embeds `collectFreeVars(node, bound)` of lambdaCalculus.js: the free
variable names of `node` relative to the bound set `bound`.  The source
returns a JS `Set`; membership is all that is ever consumed, so a list
(possibly with duplicates) stands for the set. -/
def collectFreeVars : Expr → List String → List String
  | .var id, bound => if id ∈ bound then [] else [id]
  | .lam id e, bound => collectFreeVars e (id :: bound)
  | .app l r, bound => collectFreeVars l bound ++ collectFreeVars r bound

/-- Embeds `collectAllNames(node)` of lambdaCalculus.js: every identifier
occurring anywhere (binder position or use position). -/
def collectAllNames : Expr → List String
  | .var id => [id]
  | .lam id e => id :: collectAllNames e
  | .app l r => collectAllNames l ++ collectAllNames r

/-- Embeds `countVarUses(node, varId)` of lambdaCalculus.js: occurrences of
`varId`, stopping (0 for the whole subtree) at a lambda that rebinds it. -/
def countVarUses : Expr → String → Nat
  | .var id, varId => if id = varId then 1 else 0
  | .lam id e, varId => if id = varId then 0 else countVarUses e varId
  | .app l r, varId => countVarUses l varId + countVarUses r varId

/-- Embeds `renameInBody(node, oldId, newId)` of lambdaCalculus.js: renames
uses of `oldId`, stopping at inner lambdas that shadow it. -/
def renameInBody : Expr → String → String → Expr
  | .var id, oldId, newId => if id = oldId then .var newId else .var id
  | .lam id e, oldId, newId =>
    if id = oldId then .lam id e else .lam id (renameInBody e oldId newId)
  | .app l r, oldId, newId =>
    .app (renameInBody l oldId newId) (renameInBody r oldId newId)

/-- Embeds the fresh-name `while` loops of the source (`betaReduce` and
`alphaSubstitute`): starting from `base ++ "1"`, try numeric suffixes in
order until one is not `bad`.  The source loop always terminates because
the bad sets are finite; the fuel passed by callers exceeds their size. -/
def freshVariant (base : String) (bad : String → Bool) : Nat → Nat → String
  | 0, suffix => base ++ toString suffix
  | fuel + 1, suffix =>
    let cand := base ++ toString suffix
    if bad cand then freshVariant base bad fuel (suffix + 1) else cand

/-- Embeds `alphaSubstitute(root, parentVars, substitutions)` of
lambdaCalculus.js: renames bound variables of a substituted copy that
collide with names already in scope (`parentVars`), applying the rename
map `substitutions` to variable uses.  The source's save/restore of the
two mutable maps is the immutable threading below; `delete root.uid` is
renderer bookkeeping with no effect on the AST modelled here. -/
def alphaSubstitute : Expr → List String → List (String × String) → Expr
  | .var id, _, substitutions =>
    match substitutions.lookup id with
    | some n => .var n
    | none => .var id
  | .lam id e, parentVars, substitutions =>
    if id ∈ parentVars then
      let newName := freshVariant id (fun s => parentVars.contains s)
        (parentVars.length + 1) 1
      .lam newName
        (alphaSubstitute e (newName :: parentVars) ((id, newName) :: substitutions))
    else
      .lam id (alphaSubstitute e parentVars substitutions)
  | .app l r, parentVars, substitutions =>
    .app (alphaSubstitute l parentVars substitutions)
         (alphaSubstitute r parentVars substitutions)

/-- Embeds `betaReduce(root, id, sub, parentVars, freeVars)` of
lambdaCalculus.js, returning the transformed target.  The source recurses
into a renamed body, so the recursion is driven by a fuel argument; call
sites pass `Expr.size` of the target, which bounds the recursion depth
(`renameInBody` preserves size).  `deepCopy` of the substitute is value
copying, which is implicit for a pure term. -/
def betaReduce : Nat → Expr → String → Expr → List String → List String → Expr
  | 0, root, _, _, _, _ => root
  | fuel + 1, root, id, sub, parentVars, freeVars =>
    match root with
    | .var vid =>
      if vid = id then alphaSubstitute sub parentVars [] else .var vid
    | .lam lid e =>
      if lid ≠ id ∧ lid ∈ freeVars then
        let bodyNames := collectAllNames e
        let newName := freshVariant lid
          (fun s => parentVars.contains s || freeVars.contains s || bodyNames.contains s)
          (parentVars.length + freeVars.length + bodyNames.length + 1) 1
        .lam newName
          (betaReduce fuel (renameInBody e lid newName) id sub (newName :: parentVars) freeVars)
      else
        .lam lid (betaReduce fuel e id sub (lid :: parentVars) freeVars)
    | .app l r =>
      .app (betaReduce fuel l id sub parentVars freeVars)
           (betaReduce fuel r id sub parentVars freeVars)

/-- Embeds `findAndReduce(root, parentVars)` of lambdaCalculus.js together
with the caller's collapse (`copyInto(reduction.applicationNode,
reduction.reducedExpression)` in the renderer's `update`).  The source
mutates the tree and returns a descriptor or `false`; here the first
component is the tree after the call (before collapse) and the second is
the whole tree after the collapse is committed, `none` when no redex was
found.  When the argument-first search fails the source substitutes the
argument subtree as the search left it, hence `p.1` below.  The
source's single `else` branch (left child not a lambda) is spelled out
once per remaining left shape so that each equation is by constructor. -/
def findAndReduce : Expr → List String → Expr × Option Expr
  | .var vid, _ => (.var vid, none)
  | .lam id e, parentVars =>
    let p := findAndReduce e (id :: parentVars)
    (.lam id p.1, p.2.map (Expr.lam id))
  | .app (.lam subId body) r, parentVars =>
    if countVarUses body subId > 1 then
      let p := findAndReduce r parentVars
      match p.2 with
      | some r₂ => (.app (.lam subId body) p.1, some (.app (.lam subId body) r₂))
      | none =>
        let body₂ := betaReduce (Expr.size body) body subId p.1 parentVars
          (collectFreeVars p.1 [])
        (.app (.lam subId body₂) p.1, some body₂)
    else
      let body₂ := betaReduce (Expr.size body) body subId r parentVars
        (collectFreeVars r [])
      (.app (.lam subId body₂) r, some body₂)
  | .app (.var lid) r, parentVars =>
    let p := findAndReduce (.var lid) parentVars
    match p.2 with
    | some l₂ => (.app p.1 r, some (.app l₂ r))
    | none =>
      let q := findAndReduce r parentVars
      (.app p.1 q.1, q.2.map (fun r₂ => .app p.1 r₂))
  | .app (.app l₁ l₂) r, parentVars =>
    let p := findAndReduce (.app l₁ l₂) parentVars
    match p.2 with
    | some l₃ => (.app p.1 r, some (.app l₃ r))
    | none =>
      let q := findAndReduce r parentVars
      (.app p.1 q.1, q.2.map (fun r₂ => .app p.1 r₂))

/-- Whether a tree contains a redex: an application whose left child is a
lambda (the glossary's definition in the spec). -/
def hasRedex : Expr → Bool
  | .var _ => false
  | .lam _ e => hasRedex e
  | .app (.lam _ _) _ => true
  | .app (.var lid) r => hasRedex (.var lid) || hasRedex r
  | .app (.app l₁ l₂) r => hasRedex (.app l₁ l₂) || hasRedex r

/-- Repeated committed reduction steps from a root: `none` as soon as a
step reports "no redex found". -/
def iterStep : Nat → Expr → Option Expr
  | 0, e => some e
  | n + 1, e =>
    match (findAndReduce e []).2 with
    | some e₂ => iterStep n e₂
    | none => none

/-- Embeds `alphaEquivHelper(a, b, aToB, bToA)` of common.js.  The JS
object-spread insertion `{...m, [k]: v}` is a cons whose binding wins on
lookup. -/
def alphaEquivHelper : Expr → Expr → List (String × String) → List (String × String) → Bool
  | .var aid, .var bid, aToB, bToA =>
    match aToB.lookup aid, bToA.lookup bid with
    | none, none => aid == bid
    | am, bm => (am == some bid) && (bm == some aid)
  | .lam aid ae, .lam bid be, aToB, bToA =>
    alphaEquivHelper ae be ((aid, bid) :: aToB) ((bid, aid) :: bToA)
  | .app al ar, .app bl br, aToB, bToA =>
    alphaEquivHelper al bl aToB bToA && alphaEquivHelper ar br aToB bToA
  | _, _, _, _ => false

/-- Embeds `alphaEquivalent(a, b)` of common.js. -/
def alphaEquivalent (a b : Expr) : Bool :=
  alphaEquivHelper a b [] []

/-- Whitespace test used for the JS `trim()` and `\s` of the source's
regular expressions. -/
def isWsChar (c : Char) : Bool := c.isWhitespace

/-- Embeds the JS `String.prototype.trim()`: strip whitespace from both
ends. -/
def trimBoth (cs : List Char) : List Char :=
  ((cs.dropWhile isWsChar).reverse.dropWhile isWsChar).reverse

/-- Characters allowed in a variable token by the regular expression
`[^\(\):\s]` of parseVariable in parseChurchLambdaString.js (note that
`.` and `=` are allowed there). -/
def isVarChar (c : Char) : Bool :=
  !(c = '(' || c = ')' || c = ':' || c.isWhitespace)

/-- Characters allowed after the first character of a lambda header by
the class `[^\(\)\.:]` of parseLambda in parseChurchLambdaString.js. -/
def isLamIdChar (c : Char) : Bool :=
  !(c = '(' || c = ')' || c = '.' || c = ':')

/-- Embeds `match(/\S+/g)`: the maximal runs of non-whitespace characters,
as the parameter names of a multi-parameter lambda header.  Fuel-driven
(each run consumes at least one character); callers pass the length. -/
def splitWs : Nat → List Char → List String
  | 0, _ => []
  | _, [] => []
  | fuel + 1, c :: cs =>
    if isWsChar c then splitWs fuel cs
    else
      let tok := (c :: cs).takeWhile (fun d => !isWsChar d)
      String.mk tok :: splitWs fuel ((c :: cs).drop tok.length)

/-- Embeds `parseVariable(consumableString)` of parseChurchLambdaString.js:
trim, take the maximal `[^\(\):\s]+` prefix, fail when empty. -/
def parseVariableL (s : List Char) : Option (Expr × List Char) :=
  let t := trimBoth s
  let id := t.takeWhile isVarChar
  if id = [] then none else some (.var (String.mk id), t.drop id.length)

/-- Embeds the header match `/^:\s*([^\(\)\.:\s][^\(\)\.:]*)\./` of
parseLambda in parseChurchLambdaString.js: after `:` and optional
whitespace, a group whose first character is outside `()`, `.`, `:` and
whitespace and whose remainder is outside `()`, `.`, `:`, terminated by
`.`; the group is split on whitespace into the parameter names. -/
def parseLambdaHeader (s : List Char) : Option (List String × List Char) :=
  match trimBoth s with
  | ':' :: rest =>
    let rest₁ := rest.dropWhile isWsChar
    match rest₁ with
    | [] => none
    | c₀ :: _ =>
      if isLamIdChar c₀ && !isWsChar c₀ then
        let grp := rest₁.takeWhile isLamIdChar
        match rest₁.drop grp.length with
        | '.' :: rest₂ => some (splitWs grp.length grp, rest₂)
        | _ => none
      else none
  | _ => none

/-- Embeds `lambdaChain(ids, expression)` of parseChurchLambdaString.js:
the multi-parameter sugar desugared to nested lambdas. -/
def lambdaChain : List String → Expr → Expr
  | [], e => e
  | id :: ids, e => .lam id (lambdaChain ids e)

/-- Embeds `applicationChain(expressions)` of parseChurchLambdaString.js:
a left-associative application chain; the source throws on an empty
list, embedded as `none`. -/
def applicationChain : List Expr → Option Expr
  | [] => none
  | e :: es => some (es.foldl Expr.app e)

/-- Embeds `parseExpression` of parseChurchLambdaString.js together with
the bodies of `parseParenthetical` and `parseLambda` it dispatches to:
collect terms until the trimmed remainder is empty or starts with `)`,
returning the term list and the remainder.  `parseExpression` itself is
this followed by `applicationChain`.  Fuel-driven: every recursive call
works on a strictly shorter remainder, so the initial length suffices. -/
def parseTerms : Nat → List Char → Option (List Expr × List Char)
  | 0, _ => none
  | fuel + 1, s =>
    match trimBoth s with
    | [] => some ([], [])
    | ')' :: rest => some ([], ')' :: rest)
    | '(' :: rest =>
      match parseTerms fuel rest with
      | some (es, s₂) =>
        match applicationChain es with
        | some e =>
          match trimBoth s₂ with
          | ')' :: rest₂ =>
            match parseTerms fuel rest₂ with
            | some (es₂, s₃) => some (e :: es₂, s₃)
            | none => none
          | _ => none
        | none => none
      | none => none
    | ':' :: rest =>
      match parseLambdaHeader (':' :: rest) with
      | some (ids, rest₂) =>
        match parseTerms fuel rest₂ with
        | some (es, s₂) =>
          match applicationChain es with
          | some body =>
            match parseTerms fuel s₂ with
            | some (es₂, s₃) => some (lambdaChain ids body :: es₂, s₃)
            | none => none
          | none => none
        | none => none
      | none => none
    | c :: rest =>
      if isVarChar c then
        match parseVariableL (c :: rest) with
        | some (v, s₂) =>
          match parseTerms fuel s₂ with
          | some (es, s₃) => some (v :: es, s₃)
          | none => none
        | none => none
      else none

/-- Top-level parse of a whole string (the renderer's `parseExpression(
consumableString)` call): the collected terms folded into an application
chain; any unconsumed remainder is only a console warning in the source
and is dropped here. -/
def parseTop (s : String) : Option Expr :=
  match parseTerms (s.data.length + 1) s.data with
  | some (es, _) => applicationChain es
  | none => none

/-- Embeds `expressionToString`, `lambdaToString` and
`applicationToString` of the unparser in one structural recursion: the
first component is `expressionToString e`; the second is the rendering
of `e` as the continuation of an enclosing lambda header (the `while`
loop of `lambdaToString` that collapses `:x.:y.e` into `:x y.e`),
namely `" id"` joins for further lambdas and `"." ++ body` otherwise. -/
def exprStrings : Expr → String × String
  | .var id => (id, "." ++ id)
  | .lam id e =>
    let p := exprStrings e
    (":" ++ id ++ p.2, " " ++ id ++ p.2)
  | .app l r =>
    let pl := exprStrings l
    let pr := exprStrings r
    let s :=
      match r with
      | .app _ _ => pl.1 ++ "(" ++ pr.1 ++ ")"
      | _ => pl.1 ++ " " ++ pr.1
    (s, "." ++ s)

/-- Embeds `expressionToString(expression)` of the unparser. -/
def expressionToString (e : Expr) : String := (exprStrings e).1

/-- Token-boundary characters of the macro layer: the class `[\s():.=]`
of the replacement pattern in expandMacroInString. -/
def isBoundaryChar (c : Char) : Bool :=
  c.isWhitespace || c = '(' || c = ')' || c = ':' || c = '.' || c = '='

/-- The lookahead `(?=$|[\s():.=])`: end of input or a boundary
character next. -/
def boundaryOrEnd : List Char → Bool
  | [] => true
  | c :: _ => isBoundaryChar c

/-- Whether the first list is a prefix of the second (the test a
regular-expression match at the current position performs). -/
def matchesAt : List Char → List Char → Bool
  | [], _ => true
  | _ :: _, [] => false
  | c :: cs, d :: ds => c == d && matchesAt cs ds

/-- Embeds the global replacement of expandMacroInString: scan left to
right; at a position preceded by start-of-input or a boundary character
(`atB`), where the name matches and is followed by a boundary character
or the end, emit `(body)` and continue after the match (the lookarounds
consume nothing, so the flag for the next position is determined by the
name's last character); otherwise emit the character.  Fuel-driven (at
least one character is consumed per step); callers pass the length of
the input.  The name is nonempty whenever the source calls this (empty
names are discarded by expandMacros before ever substituting). -/
def expandScan (name body : List Char) : Nat → Bool → List Char → List Char
  | _, _, [] => []
  | 0, _, cs => cs
  | fuel + 1, atB, c :: cs =>
    if name ≠ [] ∧ atB = true ∧ matchesAt name (c :: cs) = true ∧
        boundaryOrEnd (List.drop name.length (c :: cs)) = true then
      '(' :: (body ++ ')' :: expandScan name body fuel
        (isBoundaryChar (name.getLastD ' ')) (List.drop name.length (c :: cs)))
    else
      c :: expandScan name body fuel (isBoundaryChar c) cs

/-- Embeds `expandMacroInString(str, name, body)` on character lists. -/
def expandMacroInStringL (str name body : List Char) : List Char :=
  expandScan name body str.length true str

/-- Embeds `expandMacroInString(str, name, body)` of the macro layer:
replace every whole-token occurrence of `name` in `str` by the
parenthesized `body` (the regex escaping of the source only makes the
name match literally, which a direct string match does by itself). -/
def expandMacroInString (str name body : String) : String :=
  String.mk (expandMacroInStringL str.data name.data body.data)

/-- Embeds the JS `split('\n')`. -/
def splitOnNl : List Char → List (List Char)
  | [] => [[]]
  | c :: cs =>
    if c = '\n' then [] :: splitOnNl cs
    else
      match splitOnNl cs with
      | [] => [[c]]
      | l :: ls => (c :: l) :: ls

/-- Embeds one iteration of the line loop of `expandMacros`: the
accumulator carries the macro list (name, fully pre-expanded body) and
the expression lines collected so far. -/
def macroStep (acc : List (List Char × List Char) × List (List Char))
    (raw : List Char) : List (List Char × List Char) × List (List Char) :=
  let line := trimBoth raw
  if line = [] then acc
  else if '=' ∈ line then
    let name := trimBoth (line.takeWhile (fun c => !(c == '=')))
    let body := trimBoth ((line.dropWhile (fun c => !(c == '='))).drop 1)
    if name = [] ∨ body = [] then acc
    else
      let body₂ := acc.1.foldl (fun b m => expandMacroInStringL b m.1 m.2) body
      (acc.1 ++ [(name, body₂)], acc.2)
  else (acc.1, acc.2 ++ [line])

/-- Embeds `exprLines.join(' ')`. -/
def joinSpace : List (List Char) → List Char
  | [] => []
  | [l] => l
  | l :: ls => l ++ ' ' :: joinSpace ls

/-- Embeds `expandMacros(input)` on character lists: classify each line
(blank lines skipped, a line containing `=` defines a macro whose name
and body must be nonempty after trimming, every other line is an
expression line), then substitute every macro in definition order into
the space-joined expression lines; when no expression line exists the
trimmed input is returned. -/
def expandMacrosL (input : List Char) : List Char :=
  let p := (splitOnNl input).foldl macroStep ([], [])
  if p.2 = [] then trimBoth input
  else p.1.foldl (fun e m => expandMacroInStringL e m.1 m.2) (joinSpace p.2)

/-- Embeds `expandMacros(input)` of the macro layer. -/
def expandMacros (input : String) : String :=
  String.mk (expandMacrosL input.data)

/-- The JS `input.trim()` on a `String`, with the same whitespace test as
the rest of the embedding. -/
def trimStr (s : String) : String :=
  String.mk (trimBoth s.data)

/-- A segmentation of a target string for the whole-token
characterization of macro substitution: a segment is either a token (a
maximal run of non-boundary characters) or a single boundary
character. -/
inductive MacroSeg : Type where
  | tok (t : List Char)
  | sep (c : Char)

/-- The string a segmentation denotes. -/
def renderSegs : List MacroSeg → List Char
  | [] => []
  | .tok t :: rest => t ++ renderSegs rest
  | .sep c :: rest => c :: renderSegs rest

/-- Modelled from the spec: the substitution contract "replace every
whole-token occurrence of the macro name in the target string with
`(body)`" — on a segmentation, exactly the tokens equal to the name are
replaced by the parenthesized body. -/
def replaceTokens (name body : List Char) : List MacroSeg → List MacroSeg :=
  List.map fun s =>
    match s with
    | .tok t => if t = name then .tok ('(' :: (body ++ [')'])) else .tok t
    | .sep c => .sep c

/-- No segment list starting with a token follows: used to state that a
segmentation never juxtaposes two tokens (their rendering would merge). -/
def notTokHead : List MacroSeg → Bool
  | .tok _ :: _ => false
  | _ => true

/-- Well-formedness of a segmentation: tokens are nonempty and free of
boundary characters, separators are boundary characters, and no two
tokens are adjacent. -/
def segsWF : List MacroSeg → Bool
  | [] => true
  | .sep c :: rest => isBoundaryChar c && segsWF rest
  | .tok t :: rest =>
    (!t.isEmpty) && t.all (fun c => !isBoundaryChar c) && notTokHead rest && segsWF rest

theorem lookup_mem {k v : String} :
    ∀ {l : List (String × String)}, l.lookup k = some v → (k, v) ∈ l := by
  intro l
  induction l with
  | nil => intro h; simp [List.lookup] at h
  | cons p t ih =>
    obtain ⟨a, b⟩ := p
    intro h
    by_cases hk : k = a
    · subst hk
      simp [List.lookup] at h
      subst h
      exact List.mem_cons_self _ _
    · have hk2 : (k == a) = false := beq_eq_false_iff_ne.2 hk
      simp [List.lookup, hk2] at h
      exact List.mem_cons_of_mem _ (ih h)

theorem alphaEquivHelper_diag (e : Expr) :
    ∀ l : List (String × String), (∀ p ∈ l, p.1 = p.2) → alphaEquivHelper e e l l = true := by
  induction e with
  | var aid =>
    intro l hl
    cases h : l.lookup aid with
    | none => simp [alphaEquivHelper, h]
    | some v =>
      have hv : aid = v := hl _ (lookup_mem h)
      subst hv
      simp [alphaEquivHelper, h]
  | lam aid ae ih =>
    intro l hl
    simp only [alphaEquivHelper]
    apply ih
    intro p hp
    cases hp with
    | head => rfl
    | tail _ hp2 => exact hl p hp2
  | app al ar ih₁ ih₂ =>
    intro l hl
    simp only [alphaEquivHelper]
    rw [ih₁ l hl, ih₂ l hl]
    rfl

theorem alphaEquivHelper_swap (a : Expr) :
    ∀ (b : Expr) (l₁ l₂ : List (String × String)),
      alphaEquivHelper a b l₁ l₂ = alphaEquivHelper b a l₂ l₁ := by
  induction a with
  | var aid =>
    intro b l₁ l₂
    cases b with
    | var bid =>
      simp only [alphaEquivHelper]
      rcases h₁ : l₁.lookup aid with _ | v₁ <;> rcases h₂ : l₂.lookup bid with _ | v₂
      · by_cases h : aid = bid
        · subst h; rfl
        · rw [beq_eq_false_iff_ne.2 h, beq_eq_false_iff_ne.2 (Ne.symm h)]
      · simp [Bool.and_comm]
      · simp [Bool.and_comm]
      · simp [Bool.and_comm]
    | lam bid be => rfl
    | app bl br => rfl
  | lam aid ae ih =>
    intro b l₁ l₂
    cases b with
    | var bid => rfl
    | lam bid be => simp only [alphaEquivHelper]; exact ih be _ _
    | app bl br => rfl
  | app al ar ih₁ ih₂ =>
    intro b l₁ l₂
    cases b with
    | var bid => rfl
    | lam bid be => rfl
    | app bl br =>
      simp only [alphaEquivHelper]
      rw [ih₁ bl l₁ l₂, ih₂ br l₁ l₂]

/-- C8: `alphaEquivalent` is reflexive and symmetric: every expression is
alpha-equivalent to itself, and the comparison gives the same answer
with its arguments swapped. -/
theorem alphaEquivalent_refl_symm :
    (∀ e : Expr, alphaEquivalent e e = true) ∧
    (∀ a b : Expr, alphaEquivalent a b = alphaEquivalent b a) := by
  constructor
  · intro e
    exact alphaEquivHelper_diag e [] (by intro p hp; cases hp)
  · intro a b
    exact alphaEquivHelper_swap a b [] []

theorem findAndReduce_isSome (e : Expr) :
    ∀ parentVars : List String, ((findAndReduce e parentVars).2).isSome = hasRedex e := by
  induction e with
  | var vid => intro pv; rfl
  | lam id e ih =>
    intro pv
    simp only [findAndReduce, hasRedex, Option.isSome_map']
    exact ih _
  | app l r ihl ihr =>
    intro pv
    cases l with
    | var lid =>
      simp only [findAndReduce, hasRedex, Option.isSome_map']
      rw [ihr pv]
      simp
    | lam subId body =>
      by_cases h : countVarUses body subId > 1
      · simp only [findAndReduce, hasRedex, if_pos h]
        cases hp : (findAndReduce r pv).2 <;> simp [hp]
      · simp only [findAndReduce, hasRedex, if_neg h]
        rfl
    | app l₁ l₂ =>
      have hl := ihl pv
      cases hp : (findAndReduce (Expr.app l₁ l₂) pv).2 with
      | some l₃ =>
        rw [hp] at hl
        simp only [findAndReduce, hasRedex, hp, ← hl]
        rfl
      | none =>
        rw [hp] at hl
        simp only [findAndReduce, hasRedex, hp, ← hl, Option.isSome_map']
        rw [ihr pv]
        simp

theorem findAndReduce_none_eq (e : Expr) :
    ∀ parentVars : List String,
      (findAndReduce e parentVars).2 = none → (findAndReduce e parentVars).1 = e := by
  induction e with
  | var vid => intro pv _; rfl
  | lam id e ih =>
    intro pv h
    simp only [findAndReduce] at h ⊢
    have h2 : (findAndReduce e (id :: pv)).2 = none := by
      cases hp : (findAndReduce e (id :: pv)).2 with
      | some x => rw [hp] at h; simp at h
      | none => rfl
    rw [ih _ h2]
  | app l r ihl ihr =>
    intro pv h
    cases l with
    | var lid =>
      simp only [findAndReduce] at h ⊢
      cases hq : (findAndReduce r pv).2 with
      | some x => rw [hq] at h; simp at h
      | none =>
        rw [ihr pv hq]
    | lam subId body =>
      by_cases hc : countVarUses body subId > 1
      · simp only [findAndReduce, if_pos hc] at h
        cases hp : (findAndReduce r pv).2 <;> rw [hp] at h <;> simp at h
      · simp only [findAndReduce, if_neg hc] at h
        simp at h
    | app l₁ l₂ =>
      cases hp : (findAndReduce (Expr.app l₁ l₂) pv).2 with
      | some x =>
        simp only [findAndReduce, hp] at h
        simp at h
      | none =>
        simp only [findAndReduce, hp] at h ⊢
        have hq : (findAndReduce r pv).2 = none := by
          cases hq2 : (findAndReduce r pv).2 with
          | some x => rw [hq2] at h; simp at h
          | none => rfl
        rw [ihl pv hp, ihr pv hq]

/-- C10: the search returns a reduction exactly when the tree contains a
redex (an application whose left child is a lambda), and when it reports
none the tree after the call is the input tree, unchanged. -/
theorem findAndReduce_result_iff_redex (e : Expr) (parentVars : List String) :
    ((findAndReduce e parentVars).2 ≠ none ↔ hasRedex e = true) ∧
    ((findAndReduce e parentVars).2 = none → (findAndReduce e parentVars).1 = e) := by
  constructor
  · rw [Option.ne_none_iff_isSome, findAndReduce_isSome]
  · exact findAndReduce_none_eq e parentVars

theorem findAndReduce_result_iff_redex_witness :
    (findAndReduce (Expr.lam "x" (Expr.var "x")) []).1 = Expr.lam "x" (Expr.var "x") :=
  (findAndReduce_result_iff_redex (Expr.lam "x" (Expr.var "x")) []).2 (by decide)

/-- C6: at a redex whose bound variable is used more than once in the
lambda body (shadowed occurrences not counted), the step reduces inside
the argument when the argument contains a redex, leaving the lambda and
its body untouched; when the argument contains no redex, the unreduced
argument is substituted on that same step. -/
theorem multiUse_argument_first (id : String) (body arg : Expr) (parentVars : List String)
    (h : countVarUses body id > 1) :
    (hasRedex arg = true → ∃ r₂, (findAndReduce arg parentVars).2 = some r₂ ∧
      (findAndReduce (.app (.lam id body) arg) parentVars).2 =
        some (.app (.lam id body) r₂)) ∧
    (hasRedex arg = false →
      (findAndReduce (.app (.lam id body) arg) parentVars).2 =
        some (betaReduce (Expr.size body) body id arg parentVars
          (collectFreeVars arg []))) := by
  constructor
  · intro hr
    have hs : ((findAndReduce arg parentVars).2).isSome = true := by
      rw [findAndReduce_isSome]; exact hr
    obtain ⟨r₂, hr₂⟩ := Option.isSome_iff_exists.1 hs
    refine ⟨r₂, hr₂, ?_⟩
    simp only [findAndReduce, if_pos h, hr₂]
  · intro hr
    have hn : (findAndReduce arg parentVars).2 = none := by
      have hs := findAndReduce_isSome arg parentVars
      rw [hr] at hs
      exact Option.not_isSome_iff_eq_none.1 (by rw [hs]; exact Bool.false_ne_true)
    have h1 : (findAndReduce arg parentVars).1 = arg :=
      findAndReduce_none_eq arg parentVars hn
    simp only [findAndReduce, if_pos h, hn, h1]

theorem multiUse_argument_first_witness :
    (∃ r₂, (findAndReduce (.app (.lam "z" (.var "z")) (.var "w")) []).2 = some r₂ ∧
      (findAndReduce (.app (.lam "f" (.app (.var "f") (.var "f")))
        (.app (.lam "z" (.var "z")) (.var "w"))) []).2 =
          some (.app (.lam "f" (.app (.var "f") (.var "f"))) r₂)) ∧
    (findAndReduce (.app (.lam "f" (.app (.var "f") (.var "f"))) (.var "w")) []).2 =
      some (betaReduce (Expr.size (.app (.var "f") (.var "f")))
        (.app (.var "f") (.var "f")) "f" (.var "w") []
        (collectFreeVars (.var "w") [])) :=
  ⟨(multiUse_argument_first "f" (.app (.var "f") (.var "f"))
      (.app (.lam "z" (.var "z")) (.var "w")) [] (by decide)).1 (by decide),
   (multiUse_argument_first "f" (.app (.var "f") (.var "f"))
      (.var "w") [] (by decide)).2 (by decide)⟩

/-- C1: the capture-avoiding substitution contract fails on the redex
`(:y1.:y.y) y`: the binder-side rename picks the fresh name `y1`, which
collides with the substitution variable itself, so the formerly bound
occurrence of `y` is substituted and the committed result `:y1.y` keeps
`y` free — it is not alpha-equivalent to the textbook result `:y.y`
(the substitution variable `y1` does not occur in the body, so textbook
substitution leaves `:y.y` unchanged up to renaming). -/
theorem betaReduce_not_capture_avoiding :
    (findAndReduce (.app (.lam "y1" (.lam "y" (.var "y"))) (.var "y")) []).2 =
      some (.lam "y1" (.var "y")) ∧
    collectFreeVars (.lam "y1" (.var "y")) [] = ["y"] ∧
    alphaEquivalent (.lam "y1" (.var "y")) (.lam "y" (.var "y")) = false := by
  refine ⟨by decide, by decide, by decide⟩

/-- C2: `betaReduce` does descend into a lambda that rebinds the
substitution variable: substituting `y` for `x` in the shadowing target
`:x.x` rewrites the bound occurrence, giving `:x.y` instead of leaving
the subtree untouched, both directly and through a full engine step on
`(:x.:x.x) y`. -/
theorem betaReduce_enters_shadowing_lambda :
    betaReduce (Expr.size (.lam "x" (.var "x"))) (.lam "x" (.var "x")) "x" (.var "y")
      [] ["y"] = .lam "x" (.var "y") ∧
    Expr.lam "x" (.var "y") ≠ .lam "x" (.var "x") ∧
    collectFreeVars (.var "y") [] = ["y"] ∧
    (findAndReduce (.app (.lam "x" (.lam "x" (.var "x"))) (.var "y")) []).2 =
      some (.lam "x" (.var "y")) := by
  refine ⟨by decide, by decide, by decide, by decide⟩

/-- C3: one reduction step on `(:x.:y.x) y` renames the inner binder to
the fresh `y1` and yields exactly `:y1.y`, which is alpha-equivalent to
`:y1.y` and is not the capturing tree `:y.y` (nor alpha-equivalent to
it). -/
theorem reduce_capture_test :
    parseTop "(:x.:y.x) y" = some (.app (.lam "x" (.lam "y" (.var "x"))) (.var "y")) ∧
    (findAndReduce (.app (.lam "x" (.lam "y" (.var "x"))) (.var "y")) []).2 =
      some (.lam "y1" (.var "y")) ∧
    alphaEquivalent (.lam "y1" (.var "y")) (.lam "y1" (.var "y")) = true ∧
    Expr.lam "y1" (.var "y") ≠ .lam "y" (.var "y") ∧
    alphaEquivalent (.lam "y1" (.var "y")) (.lam "y" (.var "y")) = false := by
  refine ⟨by decide, by decide, by decide, by decide, by decide⟩

/-- C4: the unparse-then-parse round trip fails on `(:x.x) y`: the
unparser never parenthesizes the left operand, so the lambda in function
position prints as `:x.x y`, which re-parses as the lambda `:x.(x y)` —
not alpha-equivalent to the original application. -/
theorem unparse_parse_not_round_trip :
    expressionToString (.app (.lam "x" (.var "x")) (.var "y")) = ":x.x y" ∧
    parseTop ":x.x y" = some (.lam "x" (.app (.var "x") (.var "y"))) ∧
    alphaEquivalent (.lam "x" (.app (.var "x") (.var "y")))
      (.app (.lam "x" (.var "x")) (.var "y")) = false := by
  refine ⟨by decide, by decide, by decide⟩

/-- The self-application combinator `(:x.x x) (:x.x x)` of the spec's
non-termination property. -/
def omegaExpr : Expr :=
  .app (.lam "x" (.app (.var "x") (.var "x"))) (.lam "x" (.app (.var "x") (.var "x")))

/-- C5: starting from `(:x.x x) (:x.x x)`, every state reachable by the
one-step reduction is that very expression again (hence alpha-equivalent
to the original), and stepping any number of times never reports "no
redex found". -/
theorem omega_steps_forever :
    parseTop "(:x.x x) (:x.x x)" = some omegaExpr ∧
    (findAndReduce omegaExpr []).2 = some omegaExpr ∧
    alphaEquivalent omegaExpr omegaExpr = true ∧
    hasRedex omegaExpr = true ∧
    ∀ n : Nat, iterStep n omegaExpr = some omegaExpr := by
  refine ⟨by decide, by decide, by decide, by decide, ?_⟩
  intro n
  induction n with
  | zero => rfl
  | succ n ih =>
    have hstep : (findAndReduce omegaExpr []).2 = some omegaExpr := by decide
    simp only [iterStep, hstep]
    exact ih

theorem splitOnNl_no_nl : ∀ cs : List Char, '\n' ∉ cs → splitOnNl cs = [cs] := by
  intro cs
  induction cs with
  | nil => intro _; rfl
  | cons c cs ih =>
    intro h
    have hc : ¬(c = '\n') := by
      intro hEq
      subst hEq
      exact h (List.mem_cons_self _ _)
    simp only [splitOnNl, if_neg hc]
    rw [ih (fun hm => h (List.mem_cons_of_mem c hm))]

theorem mem_trimBoth {a : Char} {cs : List Char} (h : a ∈ trimBoth cs) : a ∈ cs := by
  unfold trimBoth at h
  rw [List.mem_reverse] at h
  have h2 := (List.dropWhile_sublist _).mem h
  rw [List.mem_reverse] at h2
  exact (List.dropWhile_sublist _).mem h2

theorem expandMacros_counterexample :
    expandMacros "a\nb" = "a b" ∧ expandMacros "a\nb" ≠ trimStr "a\nb" :=
  ⟨by decide, by decide⟩

/-- C9 (amended): on an input that contains no `=` and no newline,
`expandMacros` returns the input trimmed and otherwise unmodified.  (On
multi-line input the expression lines are individually trimmed and
joined with single spaces, so the input is not returned verbatim.) -/
theorem expandMacros_single_line (s : String)
    (h1 : '\n' ∉ s.data) (h2 : '=' ∉ s.data) :
    expandMacros s = trimStr s := by
  unfold expandMacros trimStr expandMacrosL
  rw [splitOnNl_no_nl s.data h1]
  simp only [List.foldl]
  unfold macroStep
  by_cases hb : trimBoth s.data = []
  · rw [if_pos hb]
    rfl
  · rw [if_neg hb]
    have he : ¬('=' ∈ trimBoth s.data) := fun hm => h2 (mem_trimBoth hm)
    rw [if_neg he]
    simp only [List.nil_append]
    rw [if_neg (by simp : ¬([trimBoth s.data] = []))]
    rfl

theorem expandMacros_single_line_witness :
    ('\n' ∉ (" a b " : String).data) ∧ ('=' ∉ (" a b " : String).data) ∧
      expandMacros " a b " = trimStr " a b " :=
  ⟨by decide, by decide, expandMacros_single_line " a b " (by decide) (by decide)⟩

theorem matchesAt_iff (xs : List Char) :
    ∀ ys, matchesAt xs ys = true ↔ ∃ zs, ys = xs ++ zs := by
  induction xs with
  | nil =>
    intro ys
    simp [matchesAt]
  | cons c cs ih =>
    intro ys
    cases ys with
    | nil => simp [matchesAt]
    | cons d ds =>
      simp only [matchesAt, Bool.and_eq_true, beq_iff_eq, ih ds]
      constructor
      · rintro ⟨hcd, zs, hzs⟩
        exact ⟨zs, by rw [hcd, hzs]; rfl⟩
      · rintro ⟨zs, hzs⟩
        rw [List.cons_append] at hzs
        injection hzs with h1 h2
        exact ⟨h1.symm, zs, h2⟩

theorem getLastD_mem : ∀ (l : List Char) (d : Char), l ≠ [] → l.getLastD d ∈ l := by
  intro l
  induction l with
  | nil => intro d h; exact absurd rfl h
  | cons c cs ih =>
    intro d _
    cases cs with
    | nil =>
      rw [show List.getLastD [c] d = c from rfl]
      exact List.mem_cons_self _ _
    | cons e es =>
      rw [show List.getLastD (c :: e :: es) d = List.getLastD (e :: es) c from rfl]
      exact List.mem_cons_of_mem _ (ih c (by simp))

theorem expandScan_sep (name body : List Char) (hn : name ≠ [])
    (hb : ∀ c ∈ name, isBoundaryChar c = false)
    (c : Char) (hc : isBoundaryChar c = true) (fuel : Nat) (atB : Bool)
    (rest : List Char) :
    expandScan name body (fuel + 1) atB (c :: rest) =
      c :: expandScan name body fuel true rest := by
  have hcond : ¬(name ≠ [] ∧ atB = true ∧ matchesAt name (c :: rest) = true ∧
      boundaryOrEnd (List.drop name.length (c :: rest)) = true) := by
    rintro ⟨hne, -, hm, -⟩
    obtain ⟨n₀, ns, hns⟩ := List.exists_cons_of_ne_nil hne
    subst hns
    simp only [matchesAt, Bool.and_eq_true, beq_iff_eq] at hm
    have := hb n₀ (List.mem_cons_self _ _)
    rw [hm.1, hc] at this
    cases this
  rw [expandScan, if_neg hcond, hc]

theorem expandScan_match (name body : List Char) (hn : name ≠ [])
    (hb : ∀ c ∈ name, isBoundaryChar c = false) (fuel : Nat) (rest : List Char)
    (hre : boundaryOrEnd rest = true) :
    expandScan name body (fuel + 1) true (name ++ rest) =
      '(' :: (body ++ ')' :: expandScan name body fuel false rest) := by
  obtain ⟨n₀, ns, hns⟩ := List.exists_cons_of_ne_nil hn
  subst hns
  have hcond : (n₀ :: ns ≠ []) ∧ (true = true) ∧
      matchesAt (n₀ :: ns) (n₀ :: (ns ++ rest)) = true ∧
      boundaryOrEnd (List.drop (n₀ :: ns).length (n₀ :: (ns ++ rest))) = true := by
    refine ⟨by simp, rfl, ?_, ?_⟩
    · exact (matchesAt_iff _ _).2 ⟨rest, by simp⟩
    · rw [show (n₀ :: (ns ++ rest)) = (n₀ :: ns) ++ rest from rfl,
        List.drop_left (n₀ :: ns) rest]
      exact hre
  rw [show (n₀ :: ns) ++ rest = n₀ :: (ns ++ rest) from rfl]
  rw [expandScan, if_pos hcond]
  rw [show (n₀ :: (ns ++ rest)) = (n₀ :: ns) ++ rest from rfl,
    List.drop_left (n₀ :: ns) rest]
  rw [hb _ (getLastD_mem (n₀ :: ns) ' ' (by simp))]

theorem expandScan_token_false (name body : List Char) :
    ∀ (t : List Char), (∀ c ∈ t, isBoundaryChar c = false) →
      ∀ (rest : List Char) (fuel : Nat), t.length ≤ fuel →
        expandScan name body fuel false (t ++ rest) =
          t ++ expandScan name body (fuel - t.length) false rest := by
  intro t
  induction t with
  | nil =>
    intro _ rest fuel _
    simp
  | cons c t₂ ih =>
    intro htb rest fuel hf
    cases fuel with
    | zero => simp at hf
    | succ f =>
      rw [show (c :: t₂) ++ rest = c :: (t₂ ++ rest) from rfl]
      rw [expandScan, if_neg (by rintro ⟨-, hatB, -, -⟩; cases hatB)]
      rw [htb c (List.mem_cons_self _ _)]
      rw [ih (fun d hd => htb d (List.mem_cons_of_mem _ hd)) rest f (by simpa using hf)]
      simp [Nat.succ_sub_succ]

theorem no_match_at_token (name : List Char)
    (hb : ∀ c ∈ name, isBoundaryChar c = false)
    (t : List Char) (htb : ∀ c ∈ t, isBoundaryChar c = false)
    (hne : t ≠ name) (rest : List Char) (hre : boundaryOrEnd rest = true) :
    ¬(matchesAt name (t ++ rest) = true ∧
      boundaryOrEnd (List.drop name.length (t ++ rest)) = true) := by
  rintro ⟨hm, hbe⟩
  obtain ⟨w, hw⟩ := (matchesAt_iff name _).1 hm
  rcases Nat.lt_trichotomy name.length t.length with hlt | heq | hgt
  · have hdrop : (t ++ rest).drop name.length = t.drop name.length ++ rest := by
      rw [List.drop_append_eq_append_drop,
        Nat.sub_eq_zero_of_le (Nat.le_of_lt hlt), List.drop_zero]
    have hne2 : t.drop name.length ≠ [] := by
      intro h0
      rw [List.drop_eq_nil_iff] at h0
      omega
    obtain ⟨d, ds, hds⟩ := List.exists_cons_of_ne_nil hne2
    have hd : d ∈ t := by
      have hmem : d ∈ t.drop name.length := by
        rw [hds]; exact List.mem_cons_self _ _
      exact (List.drop_sublist _ _).mem hmem
    rw [hdrop, hds, List.cons_append] at hbe
    rw [show boundaryOrEnd (d :: (ds ++ rest)) = isBoundaryChar d from rfl] at hbe
    rw [htb d hd] at hbe
    cases hbe
  · have h1 : (t ++ rest).take t.length = t := List.take_left t rest
    rw [hw, ← heq] at h1
    rw [List.take_left name w] at h1
    exact hne (h1 ▸ rfl)
  · have ht2 : rest = name.drop t.length ++ w := by
      have h1 : (t ++ rest).drop t.length = rest := List.drop_left t rest
      rw [hw] at h1
      rw [List.drop_append_eq_append_drop,
        Nat.sub_eq_zero_of_le (Nat.le_of_lt hgt), List.drop_zero] at h1
      exact h1.symm
    have hne2 : name.drop t.length ≠ [] := by
      intro h0
      rw [List.drop_eq_nil_iff] at h0
      omega
    obtain ⟨d, ds, hds⟩ := List.exists_cons_of_ne_nil hne2
    have hd : d ∈ name := by
      have hmem : d ∈ name.drop t.length := by
        rw [hds]; exact List.mem_cons_self _ _
      exact (List.drop_sublist _ _).mem hmem
    rw [ht2, hds, List.cons_append] at hre
    rw [show boundaryOrEnd (d :: (ds ++ w)) = isBoundaryChar d from rfl] at hre
    rw [hb d hd] at hre
    cases hre

theorem expandScan_token_true (name body : List Char)
    (hb : ∀ c ∈ name, isBoundaryChar c = false)
    (t : List Char) (ht : t ≠ []) (htb : ∀ c ∈ t, isBoundaryChar c = false)
    (hne : t ≠ name) (rest : List Char) (hre : boundaryOrEnd rest = true)
    (fuel : Nat) (hf : t.length ≤ fuel + 1) :
    expandScan name body (fuel + 1) true (t ++ rest) =
      t ++ expandScan name body (fuel + 1 - t.length) false rest := by
  obtain ⟨c, t₂, hct⟩ := List.exists_cons_of_ne_nil ht
  subst hct
  rw [show (c :: t₂) ++ rest = c :: (t₂ ++ rest) from rfl]
  rw [expandScan, if_neg (by
    rintro ⟨-, -, hm, hbe⟩
    exact no_match_at_token name hb (c :: t₂) htb hne rest hre ⟨hm, hbe⟩)]
  rw [htb c (List.mem_cons_self _ _)]
  rw [expandScan_token_false name body t₂
    (fun d hd => htb d (List.mem_cons_of_mem _ hd)) rest fuel (by simpa using hf)]
  simp [Nat.succ_sub_succ]

theorem boundaryOrEnd_render (rest : List MacroSeg) (hnth : notTokHead rest = true)
    (hwr : segsWF rest = true) : boundaryOrEnd (renderSegs rest) = true := by
  cases rest with
  | nil => rfl
  | cons sg rest₂ =>
    cases sg with
    | tok t => simp [notTokHead] at hnth
    | sep c =>
      simp only [segsWF, Bool.and_eq_true] at hwr
      rw [show renderSegs (.sep c :: rest₂) = c :: renderSegs rest₂ from rfl]
      rw [show boundaryOrEnd (c :: renderSegs rest₂) = isBoundaryChar c from rfl]
      exact hwr.1

theorem expandScan_flag (name body : List Char) (hn : name ≠ [])
    (hb : ∀ c ∈ name, isBoundaryChar c = false)
    (rest : List MacroSeg) (hnth : notTokHead rest = true) (hwr : segsWF rest = true)
    (fuel : Nat) (atB : Bool) :
    expandScan name body fuel atB (renderSegs rest) =
      expandScan name body fuel true (renderSegs rest) := by
  cases rest with
  | nil => cases fuel <;> rfl
  | cons sg rest₂ =>
    cases sg with
    | tok t => simp [notTokHead] at hnth
    | sep c =>
      simp only [segsWF, Bool.and_eq_true] at hwr
      cases fuel with
      | zero => rfl
      | succ f =>
        rw [show renderSegs (.sep c :: rest₂) = c :: renderSegs rest₂ from rfl]
        rw [expandScan_sep name body hn hb c hwr.1 f atB,
          expandScan_sep name body hn hb c hwr.1 f true]

theorem expandScan_segs (name body : List Char) (hn : name ≠ [])
    (hb : ∀ c ∈ name, isBoundaryChar c = false) :
    ∀ (segs : List MacroSeg), segsWF segs = true →
      ∀ fuel, (renderSegs segs).length ≤ fuel →
        expandScan name body fuel true (renderSegs segs) =
          renderSegs (replaceTokens name body segs) := by
  intro segs
  induction segs with
  | nil =>
    intro _ fuel _
    cases fuel <;> rfl
  | cons sg rest ih =>
    cases sg with
    | sep c =>
      intro hwf fuel hf
      simp only [segsWF, Bool.and_eq_true] at hwf
      obtain ⟨hc, hwr⟩ := hwf
      rw [show renderSegs (.sep c :: rest) = c :: renderSegs rest from rfl] at hf ⊢
      cases fuel with
      | zero => simp at hf
      | succ f =>
        rw [expandScan_sep name body hn hb c hc f true]
        rw [ih hwr f (by simp at hf; omega)]
        rfl
    | tok t =>
      intro hwf fuel hf
      simp only [segsWF, Bool.and_eq_true] at hwf
      obtain ⟨⟨⟨hte, htba⟩, hnth⟩, hwr⟩ := hwf
      have ht : t ≠ [] := by
        cases t
        · simp [List.isEmpty] at hte
        · simp
      have htb : ∀ c ∈ t, isBoundaryChar c = false := by
        intro c hc
        have := List.all_eq_true.1 htba c hc
        simpa using this
      have hre : boundaryOrEnd (renderSegs rest) = true :=
        boundaryOrEnd_render rest hnth hwr
      rw [show renderSegs (.tok t :: rest) = t ++ renderSegs rest from rfl] at hf ⊢
      have htlen : 1 ≤ t.length := by
        cases t
        · exact absurd rfl ht
        · simp
      cases fuel with
      | zero =>
        rw [List.length_append] at hf
        omega
      | succ f =>
        by_cases hname : t = name
        · rw [hname]
          rw [expandScan_match name body hn hb f (renderSegs rest) hre]
          rw [expandScan_flag name body hn hb rest hnth hwr f false]
          rw [ih hwr f (by rw [List.length_append] at hf; omega)]
          rw [show replaceTokens name body (.tok name :: rest) =
            .tok ('(' :: (body ++ [')'])) :: replaceTokens name body rest from by
              simp [replaceTokens]]
          rw [show renderSegs (.tok ('(' :: (body ++ [')'])) :: replaceTokens name body rest) =
            ('(' :: (body ++ [')'])) ++ renderSegs (replaceTokens name body rest) from rfl]
          simp
        · rw [expandScan_token_true name body hb t ht htb hname (renderSegs rest) hre f
            (by rw [List.length_append] at hf; omega)]
          rw [expandScan_flag name body hn hb rest hnth hwr (f + 1 - t.length) false]
          rw [ih hwr (f + 1 - t.length) (by rw [List.length_append] at hf; omega)]
          rw [show replaceTokens name body (.tok t :: rest) =
            .tok t :: replaceTokens name body rest from by simp [replaceTokens, hname]]
          rfl

/-- C7: macro substitution is token-exact.  On any target given as a
well-formed segmentation into tokens and boundary characters, the
source's scanner replaces exactly the tokens equal to the (nonempty,
boundary-free) macro name with the parenthesized body, leaving every
other token intact; in particular expanding macro `I` inside the target
`IF` leaves `IF` unchanged. -/
theorem expandMacroInString_whole_token :
    (∀ (name body : List Char) (segs : List MacroSeg),
      name ≠ [] → (∀ c ∈ name, isBoundaryChar c = false) → segsWF segs = true →
      expandMacroInString (String.mk (renderSegs segs)) (String.mk name) (String.mk body) =
        String.mk (renderSegs (replaceTokens name body segs))) ∧
    expandMacroInString "IF" "I" ":x.x" = "IF" := by
  constructor
  · intro name body segs hn hb hwf
    show String.mk (expandScan name body (renderSegs segs).length true (renderSegs segs)) = _
    rw [expandScan_segs name body hn hb segs hwf (renderSegs segs).length (Nat.le_refl _)]
  · decide

theorem expandMacroInString_whole_token_witness :
    expandMacroInString
        (String.mk (renderSegs [.tok ['I'], .sep ' ', .tok ['I', 'F']]))
        (String.mk ['I']) (String.mk [':', 'x', '.', 'x']) =
      String.mk (renderSegs (replaceTokens ['I'] [':', 'x', '.', 'x']
        [.tok ['I'], .sep ' ', .tok ['I', 'F']])) :=
  expandMacroInString_whole_token.1 ['I'] [':', 'x', '.', 'x']
    [.tok ['I'], .sep ' ', .tok ['I', 'F']] (by decide) (by decide) (by decide)
